import Mathlib

/-!
# Verification of the hub merge engine and its query surface

A shallow embedding of the hub's merge engine, storage representation,
indices, query surface and transport adapter, together with proofs of the
specified properties (convergence, idempotence, atomicity, index
consistency, query scenarios, decoder totality, and the submit-service
response contract).

The visible slice of the repository contains the transport adapter
(submitService) and the cast-service tests; the merge engine, store and
indices they exercise are modelled from the specification, faithful to its
conflict-resolution rules and to the behaviour the tests pin down.
-/

/-- Modelled from the spec: the closed set of message kinds, each belonging
to one of two families, add (creates a fact) or remove (retracts a fact). -/
inductive MsgKind where
  | castAdd
  | castRemove
  | signerAdd
  | signerRemove
  | reactionAdd
  | reactionRemove
deriving DecidableEq, Repr

/-- Modelled from the spec: the message set a kind belongs to (casts,
signers, reactions); an add and a remove conflict only within one set. -/
inductive MsgSetTag where
  | casts
  | signers
  | reactions
deriving DecidableEq, Repr

/-- Modelled from the spec: which message set a kind belongs to. -/
def setTagOf : MsgKind → MsgSetTag
  | .castAdd => .casts
  | .castRemove => .casts
  | .signerAdd => .signers
  | .signerRemove => .signers
  | .reactionAdd => .reactions
  | .reactionRemove => .reactions

/-- Modelled from the spec: whether a kind is in the remove family. -/
def isRemoveKind : MsgKind → Bool
  | .castRemove => true
  | .signerRemove => true
  | .reactionRemove => true
  | _ => false

/-- Modelled from the spec: a signed, immutable unit of user activity.
Bytes are Nat lists; the Codec verdict (wellFormed) and the
SignatureVerifier verdict (authenticated) are carried as oracle flags,
since both are pure checks performed before the engine mutates state.
The dedup key identifies the logical target within the fid (the spec
leaves its per-kind construction open, so it is abstract here). -/
structure Msg where
  fid : Nat
  kind : MsgKind
  timestamp : Nat
  hash : List Nat
  signer : Nat
  dedupKey : Nat
  parent : Option Nat
  mentions : List Nat
  wellFormed : Bool
  authenticated : Bool
deriving DecidableEq, Repr

/-- Modelled from the spec: the primary-storage key of a message,
(fid, message set + kind, timestamp concatenated with hash). -/
structure MsgKey where
  fid : Nat
  kind : MsgKind
  timestamp : Nat
  hash : List Nat
deriving DecidableEq, Repr

/-- The primary-storage key of a message. -/
def keyOf (m : Msg) : MsgKey :=
  ⟨m.fid, m.kind, m.timestamp, m.hash⟩

/-- Modelled from the spec: tsHash, the concatenation of timestamp and
content hash, used as total-order sort key and lookup key. -/
def tsHashOf (m : Msg) : Nat × List Nat :=
  (m.timestamp, m.hash)

/-- Modelled from the spec: the value of a hash read as an unsigned
big-endian integer. -/
def hashVal (h : List Nat) : Nat :=
  h.foldl (fun a b => a * 256 + b) 0

/-- Modelled from the spec: removes are preferred over adds on an exact
tie of the (timestamp, hash) key; encoded as the last component of the
ordering key. -/
def removeRank (m : Msg) : Nat :=
  if isRemoveKind m.kind then 1 else 0

/-- The full conflict-resolution ordering key of a message. -/
def rank (m : Msg) : Nat × Nat × Nat :=
  (m.timestamp, hashVal m.hash, removeRank m)

/-- Lexicographic strict order on ordering keys. -/
def tripleLt (a b : Nat × Nat × Nat) : Prop :=
  a.1 < b.1 ∨ (a.1 = b.1 ∧ (a.2.1 < b.2.1 ∨ (a.2.1 = b.2.1 ∧ a.2.2 < b.2.2)))

instance (a b : Nat × Nat × Nat) : Decidable (tripleLt a b) := by
  unfold tripleLt; infer_instance

/-- Modelled from the spec: strict last-writer-wins order between two
messages, by timestamp, then hash as an unsigned big-endian integer, then
remove-over-add preference. An incoming message supersedes the stored one
exactly when the stored one is rankLt the incoming one. -/
def rankLt (a b : Msg) : Prop :=
  tripleLt (rank a) (rank b)

instance (a b : Msg) : Decidable (rankLt a b) := by
  unfold rankLt; infer_instance

/-- Modelled from the spec: the logical slot a message competes in, same
fid plus same dedup key within its message set. -/
def slotOf (m : Msg) : Nat × MsgSetTag × Nat :=
  (m.fid, setTagOf m.kind, m.dedupKey)

/-- Modelled from the spec: a message is valid when it is well formed and
its signature and signer authorization check out. -/
def validMsg (m : Msg) : Bool :=
  m.wellFormed && m.authenticated

/-- Modelled from the spec: the typed error taxonomy returned by the
engine and translated by the transport layer. -/
structure HubError where
  errCode : String
  message : String
deriving DecidableEq, Repr

/-- Modelled from the spec: an identity-registry event, ordered by
(blockNumber, logIndex); the custody-proof verdict is an oracle flag. -/
structure IdEvent where
  fid : Nat
  custodyAddress : Nat
  blockNumber : Nat
  logIndex : Nat
  authenticated : Bool
deriving DecidableEq, Repr

/-- Modelled from the spec: a name-registry event binding a name to an
owner, ordered by (blockNumber, logIndex). -/
structure NameEvent where
  name : Nat
  owner : Nat
  blockNumber : Nat
  logIndex : Nat
  authenticated : Bool
deriving DecidableEq, Repr

/-- Modelled from the spec: by-parent index entries for a message, keyed
by its parent reference when it has one. -/
def parentEntries (m : Msg) : List (Nat × MsgKey) :=
  match m.parent with
  | some p => [(p, keyOf m)]
  | none => []

/-- Modelled from the spec: by-mention index entries for a message, one
per mentioned user id. -/
def mentionEntries (m : Msg) : List (Nat × MsgKey) :=
  m.mentions.map (fun u => (u, keyOf m))

/-- Modelled from the spec: the hub's stored state, the primary storage of
currently-winning messages plus the three secondary indices and the two
registries, all mutated only inside a merge. -/
structure HubState where
  store : List Msg
  byFid : List MsgKey
  byParent : List (Nat × MsgKey)
  byMention : List (Nat × MsgKey)
  idEvents : List IdEvent
  nameEvents : List NameEvent
deriving DecidableEq, Repr

/-- The empty hub state. -/
def initState : HubState :=
  ⟨[], [], [], [], [], []⟩

/-- Modelled from the spec: store the winning message and add its index
entries, in the same transaction. -/
def insertWinner (s : HubState) (m : Msg) : HubState :=
  { s with
    store := m :: s.store
    byFid := keyOf m :: s.byFid
    byParent := parentEntries m ++ s.byParent
    byMention := mentionEntries m ++ s.byMention }

/-- Modelled from the spec: delete the superseded message from primary
storage and remove its index entries, in the same transaction. -/
def deleteLoser (s : HubState) (w : Msg) : HubState :=
  { s with
    store := s.store.filter (fun m => !(keyOf m == keyOf w))
    byFid := s.byFid.filter (fun k => !(k == keyOf w))
    byParent := s.byParent.filter (fun e => !(e.2 == keyOf w))
    byMention := s.byMention.filter (fun e => !(e.2 == keyOf w)) }

/-- Modelled from the spec: look up the existing winner for the incoming
message's logical slot. -/
def findConflict (store : List Msg) (m : Msg) : Option Msg :=
  store.find? (fun w => slotOf w == slotOf m)

/-- Modelled from the spec: the conflict-resolution core. Reject invalid
input before touching state; otherwise, against the existing winner of the
same logical slot, the greater ordering key wins, the loser is replaced
together with its index entries, and a superseded or duplicate input is a
successful no-op (applied = false). -/
def mergeMessage (s : HubState) (m : Msg) : HubState × Except HubError Bool :=
  if m.wellFormed = false then
    (s, .error ⟨"bad_request.validation_failure", "malformed message"⟩)
  else if m.authenticated = false then
    (s, .error ⟨"unauthenticated", "invalid signature or unauthorized signer"⟩)
  else
    match findConflict s.store m with
    | none => (insertWinner s m, .ok true)
    | some w =>
      if rankLt w m then (insertWinner (deleteLoser s w) m, .ok true)
      else (s, .ok false)

/-- Fold a list of messages through the merge engine. -/
def mergeList (s : HubState) (ms : List Msg) : HubState :=
  ms.foldl (fun s m => (mergeMessage s m).1) s

/-- Modelled from the spec: strict order on registry events by
(blockNumber, logIndex). -/
def evLt (a b : Nat × Nat) : Prop :=
  a.1 < b.1 ∨ (a.1 = b.1 ∧ a.2 < b.2)

instance (a b : Nat × Nat) : Decidable (evLt a b) := by
  unfold evLt; infer_instance

/-- Modelled from the spec: merge an identity-registry event, same
winner-replaces-loser rule with (blockNumber, logIndex) as ordering key. -/
def mergeIdRegistryEvent (s : HubState) (e : IdEvent) :
    HubState × Except HubError Bool :=
  if e.authenticated = false then
    (s, .error ⟨"unauthenticated", "invalid custody proof"⟩)
  else
    match s.idEvents.find? (fun x => x.fid == e.fid) with
    | none => ({ s with idEvents := e :: s.idEvents }, .ok true)
    | some x =>
      if evLt (x.blockNumber, x.logIndex) (e.blockNumber, e.logIndex) then
        ({ s with idEvents := e :: s.idEvents.filter (fun y => !(y.fid == e.fid)) },
          .ok true)
      else (s, .ok false)

/-- Modelled from the spec: merge a name-registry event, same
winner-replaces-loser rule with (blockNumber, logIndex) as ordering key. -/
def mergeNameRegistryEvent (s : HubState) (e : NameEvent) :
    HubState × Except HubError Bool :=
  if e.authenticated = false then
    (s, .error ⟨"unauthenticated", "invalid custody proof"⟩)
  else
    match s.nameEvents.find? (fun x => x.name == e.name) with
    | none => ({ s with nameEvents := e :: s.nameEvents }, .ok true)
    | some x =>
      if evLt (x.blockNumber, x.logIndex) (e.blockNumber, e.logIndex) then
        ({ s with nameEvents := e :: s.nameEvents.filter (fun y => !(y.name == e.name)) },
          .ok true)
      else (s, .ok false)

/-- Modelled from the spec: fetch a message from primary storage by its
store key (the query flow is index lookup then store fetch). -/
def fetch (s : HubState) (k : MsgKey) : Option Msg :=
  s.store.find? (fun m => keyOf m == k)

/-- Modelled from the spec: all currently-winning messages for a fid,
resolved through the by-fid index and then primary storage. -/
def getMessagesByFid (s : HubState) (fid : Nat) : List Msg :=
  (s.byFid.filter (fun k => k.fid == fid)).filterMap (fetch s)

/-- Modelled from the spec and the cast-service tests: a single-cast
lookup by fid and tsHash; only a currently-winning CastAdd is returned,
a miss is the typed not_found error. -/
def getCast (s : HubState) (fid : Nat) (tsHash : Nat × List Nat) :
    Except HubError Msg :=
  match s.store.find?
      (fun m => m.fid == fid && m.kind == MsgKind.castAdd && tsHashOf m == tsHash) with
  | some m => .ok m
  | none => .error ⟨"not_found", "NotFound: cast not found"⟩

/-- Modelled from the spec: decode a wire tsHash buffer into the
(timestamp, hash) pair, the timestamp occupying a fixed-width 8-byte
big-endian prefix. -/
def decodeTsHash (b : List Nat) : Nat × List Nat :=
  (hashVal (b.take 8), b.drop 8)

/-- Modelled from the spec and the cast-service tests: the transport-level
getCast request; an empty fid argument fails first with a validation error
naming fid, then an empty tsHash fails naming tsHash, and only then is the
lookup performed. -/
def getCastRpc (s : HubState) (fidBytes tsHashBytes : List Nat) :
    Except HubError Msg :=
  if fidBytes = [] then
    .error ⟨"bad_request.validation_failure", "fid is missing"⟩
  else if tsHashBytes = [] then
    .error ⟨"bad_request.validation_failure", "tsHash is missing"⟩
  else getCast s (hashVal fidBytes) (decodeTsHash tsHashBytes)

/-- Modelled from the spec and the cast-service tests: all
currently-winning CastAdds for a fid, through the by-fid index; no results
is the valid empty sequence, never an error. -/
def getCastsByFid (s : HubState) (fid : Nat) : Except HubError (List Msg) :=
  .ok ((s.byFid.filter
    (fun k => k.fid == fid && k.kind == MsgKind.castAdd)).filterMap (fetch s))

/-- Modelled from the spec and the cast-service tests: all
currently-winning casts replying to a parent reference, through the
by-parent index; no results is the valid empty sequence, never an error. -/
def getCastsByParent (s : HubState) (p : Nat) : Except HubError (List Msg) :=
  .ok ((s.byParent.filter (fun e => e.1 == p)).filterMap (fun e => fetch s e.2))

/-- Modelled from the spec and the cast-service tests: all
currently-winning casts mentioning a user id, through the by-mention
index; no results is the valid empty sequence, never an error. -/
def getCastsByMention (s : HubState) (u : Nat) : Except HubError (List Msg) :=
  .ok ((s.byMention.filter (fun e => e.1 == u)).filterMap (fun e => fetch s e.2))

/-- Modelled from the spec: the typed decoder failure. -/
inductive DecodeError where
  | truncated
  | malformed
deriving DecidableEq, Repr

/-- Modelled from the spec: the wire tag of each message kind. -/
def kindOfTag (t : Nat) : Option MsgKind :=
  match t with
  | 0 => some .castAdd
  | 1 => some .castRemove
  | 2 => some .signerAdd
  | 3 => some .signerRemove
  | 4 => some .reactionAdd
  | 5 => some .reactionRemove
  | _ => none

/-- Modelled from the spec: decode a Message from a byte buffer in the
flat wire layout (fid, kind tag, timestamp, signer, signature verdict,
dedup key, hash length, hash bytes). Truncated or malformed buffers
return a typed DecodeError; decoding is a total function and never
throws an unrecoverable fault. -/
def decodeMessage (b : List Nat) : Except DecodeError Msg :=
  match b with
  | fid :: tag :: ts :: sg :: au :: dk :: hlen :: rest =>
    match kindOfTag tag with
    | none => .error .malformed
    | some k =>
      if rest.length < hlen then .error .truncated
      else
        .ok ⟨fid, k, ts, rest.take hlen, sg, dk, none, [], true, au != 0⟩
  | _ => .error .truncated

/-- Modelled from the spec: decode an IdentityEvent from a byte buffer
(fid, custody address, block number, log index, custody-proof verdict);
always a typed result, never an unrecoverable fault. -/
def decodeIdEvent (b : List Nat) : Except DecodeError IdEvent :=
  match b with
  | [fid, addr, bn, li, au] => .ok ⟨fid, addr, bn, li, au != 0⟩
  | _ => if b.length < 5 then .error .truncated else .error .malformed

/-- Modelled from the spec: decode a NameEvent from a byte buffer
(name, owner, block number, log index, custody-proof verdict);
always a typed result, never an unrecoverable fault. -/
def decodeNameEvent (b : List Nat) : Except DecodeError NameEvent :=
  match b with
  | [nm, ow, bn, li, au] => .ok ⟨nm, ow, bn, li, au != 0⟩
  | _ => if b.length < 5 then .error .truncated else .error .malformed

/-- The transport-level error a HubError is translated into, a status
code plus the original message. -/
structure ServiceError where
  code : Nat
  message : String
deriving DecidableEq, Repr

/-- Modelled from the spec: the transport translation of the engine's
typed errors into status codes (invalid argument, unauthenticated,
not found, internal). -/
def toServiceError (e : HubError) : ServiceError :=
  if e.errCode = "bad_request.validation_failure" then ⟨3, e.message⟩
  else if e.errCode = "unauthenticated" then ⟨16, e.message⟩
  else if e.errCode = "not_found" then ⟨5, e.message⟩
  else ⟨13, e.message⟩

/-- The submitMessage service handler: construct the model from the
request, merge it, and on any success respond with the request's own
message model; on error respond with the translated service error. -/
def submitMessage (s : HubState) (m : Msg) :
    HubState × Except ServiceError Msg :=
  let r := mergeMessage s m
  match r.2 with
  | .ok _ => (r.1, .ok m)
  | .error e => (r.1, .error (toServiceError e))

/-- The submitContractEvent service handler: merge the request's
id-registry event model and on any success respond with that same model;
on error respond with the translated service error. -/
def submitContractEvent (s : HubState) (e : IdEvent) :
    HubState × Except ServiceError IdEvent :=
  let r := mergeIdRegistryEvent s e
  match r.2 with
  | .ok _ => (r.1, .ok e)
  | .error err => (r.1, .error (toServiceError err))

/-- The submitNameRegistryEvent service handler: merge the request's
name-registry event model and on any success respond with that same
model; on error respond with the translated service error. -/
def submitNameRegistryEvent (s : HubState) (e : NameEvent) :
    HubState × Except ServiceError NameEvent :=
  let r := mergeNameRegistryEvent s e
  match r.2 with
  | .ok _ => (r.1, .ok e)
  | .error err => (r.1, .error (toServiceError err))

/-- Modelled from the spec: the by-parent index derived from a store, for
stating index consistency. -/
def parentIndexOf : List Msg → List (Nat × MsgKey)
  | [] => []
  | m :: t => parentEntries m ++ parentIndexOf t

/-- Modelled from the spec: the by-mention index derived from a store,
for stating index consistency. -/
def mentionIndexOf : List Msg → List (Nat × MsgKey)
  | [] => []
  | m :: t => mentionEntries m ++ mentionIndexOf t

/-! ## Order lemmas for the conflict-resolution key -/

theorem rankLt_irrefl (a : Msg) : ¬ rankLt a a := by
  unfold rankLt tripleLt
  omega

theorem rankLt_trans {a b c : Msg} (h1 : rankLt a b) (h2 : rankLt b c) :
    rankLt a c := by
  unfold rankLt tripleLt at *
  omega

theorem rank_trichotomy (a b : Msg) :
    rankLt a b ∨ rankLt b a ∨ rank a = rank b := by
  unfold rankLt tripleLt
  rcases Nat.lt_trichotomy (rank a).1 (rank b).1 with h | h | h
  · exact Or.inl (Or.inl h)
  · rcases Nat.lt_trichotomy (rank a).2.1 (rank b).2.1 with h2 | h2 | h2
    · exact Or.inl (Or.inr ⟨h, Or.inl h2⟩)
    · rcases Nat.lt_trichotomy (rank a).2.2 (rank b).2.2 with h3 | h3 | h3
      · exact Or.inl (Or.inr ⟨h, Or.inr ⟨h2, h3⟩⟩)
      · refine Or.inr (Or.inr ?_)
        have : rank a = ((rank a).1, (rank a).2.1, (rank a).2.2) := rfl
        rw [this, h, h2, h3]
      · exact Or.inr (Or.inl (Or.inr ⟨h.symm, Or.inr ⟨h2.symm, h3⟩⟩))
    · exact Or.inr (Or.inl (Or.inr ⟨h.symm, Or.inl h2⟩))
  · exact Or.inr (Or.inl (Or.inl h))

theorem rankLt_congr_right {a b x : Msg} (h : rank a = rank b) :
    rankLt x a ↔ rankLt x b := by
  unfold rankLt
  rw [h]

/-! ## Single-slot winner fold -/

/-- The per-slot winner transition: an empty slot stores the incoming
message, an occupied slot keeps the greater ordering key. -/
def winnerStep (o : Option Msg) (m : Msg) : Option Msg :=
  match o with
  | none => some m
  | some w => if rankLt w m then some m else some w

/-- Fold a list of messages through the per-slot winner transition. -/
def foldWinner (o : Option Msg) (l : List Msg) : Option Msg :=
  l.foldl winnerStep o

/-- The hub state holding exactly the given slot winner, if any. -/
def stateFor (o : Option Msg) : HubState :=
  match o with
  | none => initState
  | some w => insertWinner initState w

theorem foldWinner_some (l : List Msg) (w : Msg) :
    ∃ w', foldWinner (some w) l = some w' ∧ w' ∈ w :: l ∧
      ∀ m ∈ w :: l, ¬ rankLt w' m := by
  induction l generalizing w with
  | nil =>
    refine ⟨w, rfl, List.mem_singleton.mpr rfl, ?_⟩
    intro m hm
    rw [List.mem_singleton] at hm
    rw [hm]
    exact rankLt_irrefl w
  | cons m t ih =>
    by_cases h : rankLt w m
    · obtain ⟨w', h1, h2, h3⟩ := ih m
      refine ⟨w', ?_, ?_, ?_⟩
      · show foldWinner (winnerStep (some w) m) t = some w'
        simpa [winnerStep, h] using h1
      · rcases List.mem_cons.mp h2 with h2 | h2
        · exact h2 ▸ List.mem_cons_of_mem _ (List.mem_cons_self _ _)
        · exact List.mem_cons_of_mem _ (List.mem_cons_of_mem _ h2)
      · intro x hx
        rcases List.mem_cons.mp hx with hx | hx
        · subst hx
          intro hc
          exact h3 m (List.mem_cons_self _ _) (rankLt_trans hc h)
        · exact h3 x hx
    · obtain ⟨w', h1, h2, h3⟩ := ih w
      refine ⟨w', ?_, ?_, ?_⟩
      · show foldWinner (winnerStep (some w) m) t = some w'
        simpa [winnerStep, h] using h1
      · rcases List.mem_cons.mp h2 with h2 | h2
        · exact h2 ▸ List.mem_cons_self _ _
        · exact List.mem_cons_of_mem _ (List.mem_cons_of_mem _ h2)
      · intro x hx
        rcases List.mem_cons.mp hx with hx | hx
        · exact hx ▸ h3 w (List.mem_cons_self _ _)
        rcases List.mem_cons.mp hx with hx | hx
        · subst hx
          intro hc
          rcases rank_trichotomy w x with hw | hw | hw
          · exact h hw
          · exact h3 w (List.mem_cons_self _ _) (rankLt_trans hc hw)
          · exact h3 w (List.mem_cons_self _ _)
              ((rankLt_congr_right hw.symm).mp hc)
        · exact h3 x (List.mem_cons_of_mem _ hx)

theorem foldWinner_none (l : List Msg) (hne : l ≠ []) :
    ∃ w', foldWinner none l = some w' ∧ w' ∈ l ∧ ∀ m ∈ l, ¬ rankLt w' m := by
  match l with
  | [] => exact absurd rfl hne
  | m :: t =>
    obtain ⟨w', h1, h2, h3⟩ := foldWinner_some t m
    exact ⟨w', h1, h2, h3⟩

/-! ## A single-slot merge run reduces to the winner fold -/

theorem filter_pair_self (l : List Nat) (k : MsgKey) :
    (l.map (fun u => (u, k))).filter (fun e => !(e.2 == k)) = [] := by
  induction l with
  | nil => rfl
  | cons a t ih => simp [List.filter_cons, ih]

theorem deleteLoser_insertWinner_init (w : Msg) :
    deleteLoser (insertWinner initState w) w = initState := by
  simp [deleteLoser, insertWinner, initState, List.filter_cons, parentEntries,
    mentionEntries, filter_pair_self]
  cases hp : w.parent <;> simp [List.filter_cons]

theorem mergeMessage_stateFor (o : Option Msg) (m : Msg)
    (hwf : m.wellFormed = true) (hau : m.authenticated = true)
    (ho : ∀ w, o = some w → slotOf w = slotOf m) :
    (mergeMessage (stateFor o) m).1 = stateFor (winnerStep o m) := by
  cases o with
  | none =>
    simp [mergeMessage, hwf, hau, stateFor, findConflict, initState, winnerStep]
  | some w =>
    have hslot : slotOf w = slotOf m := ho w rfl
    have hfind : findConflict (insertWinner initState w).store m = some w := by
      simp [findConflict, insertWinner, initState, List.find?, hslot]
    by_cases hr : rankLt w m
    · simp [mergeMessage, hwf, hau, hfind, hr, winnerStep, stateFor,
        deleteLoser_insertWinner_init]
    · simp [mergeMessage, hwf, hau, hfind, hr, winnerStep, stateFor]

theorem mergeList_stateFor (sl : Nat × MsgSetTag × Nat) :
    ∀ (l : List Msg) (o : Option Msg),
      (∀ m ∈ l, validMsg m = true) → (∀ m ∈ l, slotOf m = sl) →
      (∀ w, o = some w → slotOf w = sl) →
      mergeList (stateFor o) l = stateFor (foldWinner o l)
  | [], _, _, _, _ => rfl
  | m :: t, o, hv, hs, ho => by
    have hvm : m.wellFormed = true ∧ m.authenticated = true := by
      simpa [validMsg] using hv m (List.mem_cons_self _ _)
    have hsm := hs m (List.mem_cons_self _ _)
    have hstep : (mergeMessage (stateFor o) m).1 = stateFor (winnerStep o m) := by
      apply mergeMessage_stateFor o m hvm.1 hvm.2
      intro w hw
      exact (ho w hw).trans hsm.symm
    have ho' : ∀ w, winnerStep o m = some w → slotOf w = sl := by
      intro w hw
      cases o with
      | none =>
        simp [winnerStep] at hw
        rw [← hw]
        exact hsm
      | some x =>
        by_cases hr : rankLt x m
        · simp [winnerStep, hr] at hw
          rw [← hw]
          exact hsm
        · simp [winnerStep, hr] at hw
          rw [← hw]
          exact ho x rfl
    show mergeList ((mergeMessage (stateFor o) m).1) t = _
    rw [hstep]
    exact mergeList_stateFor sl t (winnerStep o m)
      (fun x hx => hv x (List.mem_cons_of_mem _ hx))
      (fun x hx => hs x (List.mem_cons_of_mem _ hx)) ho'

/-! ## Helper facts about merge transitions -/

theorem findConflict_cons_self (L : List Msg) (m : Msg) :
    findConflict (m :: L) m = some m := by
  simp [findConflict, List.find?]

theorem mergeMessage_valid_shape (s : HubState) (m : Msg) (s' : HubState)
    (b : Bool) (h : mergeMessage s m = (s', .ok b)) :
    m.wellFormed = true ∧ m.authenticated = true := by
  cases hwf : m.wellFormed with
  | false => simp [mergeMessage, hwf] at h
  | true =>
    cases hau : m.authenticated with
    | false => simp [mergeMessage, hwf, hau] at h
    | true => exact ⟨rfl, rfl⟩

/-! ## Claims -/

/-- C1: for every set of valid messages targeting the same logical slot,
applying them through mergeMessage in any permutation and with any
repetition converges to the same final stored winner: the message with the
maximal (timestamp, hash) ordering key, with a remove preferred over an
add on an exact tie of the key. (Hash injectivity on the message set is
assumed, as the spec's collision-resistance guarantee.) -/
theorem mergeMessage_convergence (sl : Nat × MsgSetTag × Nat)
    (l1 l2 : List Msg)
    (hv : ∀ m ∈ l1, validMsg m = true)
    (hs : ∀ m ∈ l1, slotOf m = sl)
    (hne : l1 ≠ [])
    (hset : l1.toFinset = l2.toFinset)
    (hinj : ∀ a ∈ l1, ∀ b ∈ l1, rank a = rank b → a = b) :
    mergeList initState l1 = mergeList initState l2 ∧
    ∃ w, w ∈ l1 ∧ (mergeList initState l1).store = [w] ∧
      (∀ m ∈ l1, ¬ rankLt w m) ∧
      (∀ m ∈ l1, m.timestamp = w.timestamp →
        hashVal m.hash = hashVal w.hash →
        isRemoveKind m.kind = true → isRemoveKind w.kind = true) := by
  have hmem : ∀ x : Msg, x ∈ l1 ↔ x ∈ l2 := by
    intro x
    rw [← List.mem_toFinset, hset, List.mem_toFinset]
  have hv2 : ∀ m ∈ l2, validMsg m = true := fun m hm => hv m ((hmem m).mpr hm)
  have hs2 : ∀ m ∈ l2, slotOf m = sl := fun m hm => hs m ((hmem m).mpr hm)
  have hne2 : l2 ≠ [] := by
    intro h2
    match l1, hne with
    | m :: t, _ =>
      have : m ∈ l2 := (hmem m).mp (List.mem_cons_self _ _)
      rw [h2] at this
      exact absurd this (List.not_mem_nil m)
  have hnone : ∀ w : Msg, (none : Option Msg) = some w → slotOf w = sl := by
    intro w hw
    exact Option.noConfusion hw
  have run1 : mergeList initState l1 = stateFor (foldWinner none l1) :=
    mergeList_stateFor sl l1 none hv hs hnone
  have run2 : mergeList initState l2 = stateFor (foldWinner none l2) :=
    mergeList_stateFor sl l2 none hv2 hs2 hnone
  obtain ⟨w1, hf1, hm1, hmax1⟩ := foldWinner_none l1 hne
  obtain ⟨w2, hf2, hm2, hmax2⟩ := foldWinner_none l2 hne2
  have hw12 : w1 = w2 := by
    have hm2' : w2 ∈ l1 := (hmem w2).mpr hm2
    have h12 : ¬ rankLt w1 w2 := hmax1 w2 hm2'
    have h21 : ¬ rankLt w2 w1 := hmax2 w1 ((hmem w1).mp hm1)
    rcases rank_trichotomy w1 w2 with h | h | h
    · exact absurd h h12
    · exact absurd h h21
    · exact hinj w1 hm1 w2 hm2' h
  refine ⟨?_, w1, hm1, ?_, hmax1, ?_⟩
  · rw [run1, run2, hf1, hf2, hw12]
  · rw [run1, hf1]
    rfl
  · intro m hm hts hh hr
    by_contra hw
    have hw' : isRemoveKind w1.kind = false := by
      cases hk : isRemoveKind w1.kind with
      | false => rfl
      | true => exact absurd hk hw
    have h3 : removeRank w1 < removeRank m := by
      simp [removeRank, hw', hr]
    have hlt : rankLt w1 m := by
      unfold rankLt tripleLt
      exact Or.inr ⟨hts.symm, Or.inr ⟨hh.symm, h3⟩⟩
    exact hmax1 m hm hlt

/-- Concrete CastAdd used by the claim witnesses. -/
def exCastAdd : Msg :=
  ⟨1, .castAdd, 100, [7], 5, 42, some 3, [9], true, true⟩

/-- Concrete CastRemove in the same slot with the same (timestamp, hash)
key, used by the claim witnesses. -/
def exCastRemove : Msg :=
  ⟨1, .castRemove, 100, [7], 5, 42, none, [], true, true⟩

theorem mergeMessage_convergence_witness :
    mergeList initState [exCastAdd, exCastRemove]
      = mergeList initState [exCastRemove, exCastAdd, exCastAdd] ∧
    ∃ w, w ∈ [exCastAdd, exCastRemove] ∧
      (mergeList initState [exCastAdd, exCastRemove]).store = [w] ∧
      (∀ m ∈ [exCastAdd, exCastRemove], ¬ rankLt w m) ∧
      (∀ m ∈ [exCastAdd, exCastRemove], m.timestamp = w.timestamp →
        hashVal m.hash = hashVal w.hash →
        isRemoveKind m.kind = true → isRemoveKind w.kind = true) :=
  mergeMessage_convergence (1, .casts, 42)
    [exCastAdd, exCastRemove] [exCastRemove, exCastAdd, exCastAdd]
    (by decide) (by decide) (by decide) (by decide) (by decide)

/-- C2: if mergeMessage has succeeded with applied = true, merging the
same message again returns Ok with applied = false and leaves the entire
stored state (primary storage and indices) unchanged. -/
theorem mergeMessage_idempotent (s s' : HubState) (m : Msg)
    (h : mergeMessage s m = (s', .ok true)) :
    mergeMessage s' m = (s', .ok false) := by
  obtain ⟨hwf, hau⟩ := mergeMessage_valid_shape s m s' true h
  cases hf : findConflict s.store m with
  | none =>
    simp [mergeMessage, hwf, hau, hf] at h
    rw [← h]
    simp [mergeMessage, hwf, hau, insertWinner, findConflict_cons_self,
      rankLt_irrefl]
  | some w =>
    by_cases hr : rankLt w m
    · simp [mergeMessage, hwf, hau, hf, hr] at h
      rw [← h]
      simp [mergeMessage, hwf, hau, insertWinner, findConflict_cons_self,
        rankLt_irrefl]
    · simp [mergeMessage, hwf, hau, hf, hr] at h

/-- The state after merging the concrete CastAdd into the empty hub. -/
def exStateAdd : HubState := (mergeMessage initState exCastAdd).1

theorem mergeMessage_idempotent_witness :
    mergeMessage exStateAdd exCastAdd = (exStateAdd, .ok false) :=
  mergeMessage_idempotent initState exStateAdd exCastAdd rfl

/-- C3: when two competing messages have equal timestamps, the tie is
broken by comparing their hashes as unsigned big-endian integers, larger
winning, and the ordering key is a strict total order with no ties
(hashes of distinct competing messages differ, per the spec's
collision-resistance guarantee); the comparison is a pure function of the
two messages, so it is independent of arrival order and replica. -/
theorem tiebreak_hash_bigendian (a b : Msg)
    (hts : a.timestamp = b.timestamp)
    (hne : hashVal a.hash ≠ hashVal b.hash) :
    (hashVal b.hash < hashVal a.hash ↔ (rankLt b a ∧ ¬ rankLt a b)) ∧
    (rankLt a b ∨ rankLt b a) ∧ ¬ (rankLt a b ∧ rankLt b a) ∧
    (validMsg a = true → slotOf b = slotOf a → hashVal b.hash < hashVal a.hash →
      mergeMessage (stateFor (some b)) a = (stateFor (some a), .ok true)) := by
  refine ⟨?_, ?_, ?_, ?_⟩
  · simp only [rankLt, tripleLt, rank]
    omega
  · simp only [rankLt, tripleLt, rank]
    omega
  · simp only [rankLt, tripleLt, rank]
    omega
  · intro hv hslot hlt
    have hvm : a.wellFormed = true ∧ a.authenticated = true := by
      simpa [validMsg] using hv
    have hfind : findConflict (insertWinner initState b).store a = some b := by
      simp [findConflict, insertWinner, initState, List.find?, hslot]
    have hr : rankLt b a := by
      unfold rankLt tripleLt
      exact Or.inr ⟨hts.symm, Or.inl hlt⟩
    simp [mergeMessage, hvm.1, hvm.2, hfind, hr, stateFor,
      deleteLoser_insertWinner_init]

/-- A concrete competitor of the example CastAdd: equal timestamp,
larger hash. -/
def exCastAddBig : Msg :=
  ⟨1, .castAdd, 100, [9], 6, 42, none, [], true, true⟩

theorem tiebreak_hash_bigendian_witness :
    (hashVal exCastAdd.hash < hashVal exCastAddBig.hash ↔
      (rankLt exCastAdd exCastAddBig ∧ ¬ rankLt exCastAddBig exCastAdd)) ∧
    (rankLt exCastAddBig exCastAdd ∨ rankLt exCastAdd exCastAddBig) ∧
    ¬ (rankLt exCastAddBig exCastAdd ∧ rankLt exCastAdd exCastAddBig) ∧
    (validMsg exCastAddBig = true → slotOf exCastAdd = slotOf exCastAddBig →
      hashVal exCastAdd.hash < hashVal exCastAddBig.hash →
      mergeMessage (stateFor (some exCastAdd)) exCastAddBig
        = (stateFor (some exCastAddBig), .ok true)) :=
  tiebreak_hash_bigendian exCastAddBig exCastAdd rfl (by decide)

/-- C4: a merge whose input fails validation returns an error and leaves
the whole stored state, primary storage and all indices, identical to its
pre-call state; the winner-swap commits only on a valid input. -/
theorem mergeMessage_atomic_invalid (s : HubState) (m : Msg)
    (h : validMsg m = false) :
    ∃ e, mergeMessage s m = (s, .error e) := by
  cases hwf : m.wellFormed with
  | false =>
    exact ⟨⟨"bad_request.validation_failure", "malformed message"⟩,
      by simp [mergeMessage, hwf]⟩
  | true =>
    have hau : m.authenticated = false := by
      simpa [validMsg, hwf] using h
    exact ⟨⟨"unauthenticated", "invalid signature or unauthorized signer"⟩,
      by simp [mergeMessage, hwf, hau]⟩

/-- A concrete malformed message. -/
def exBadMsg : Msg :=
  ⟨1, .castAdd, 50, [3], 5, 42, none, [], false, true⟩

theorem mergeMessage_atomic_invalid_witness :
    ∃ e, mergeMessage exStateAdd exBadMsg = (exStateAdd, .error e) :=
  mergeMessage_atomic_invalid exStateAdd exBadMsg rfl

/-! ## Index-mirror invariants -/

/-- The indices never diverge from primary storage: each index equals the
index derived from the currently stored winners. -/
def IndexMirror (s : HubState) : Prop :=
  s.byFid = s.store.map keyOf ∧
  s.byParent = parentIndexOf s.store ∧
  s.byMention = mentionIndexOf s.store

theorem indexMirror_init : IndexMirror initState :=
  ⟨rfl, rfl, rfl⟩

theorem filter_pair_ne (l : List Nat) (k0 k : MsgKey) (h : (k0 == k) = false) :
    (l.map (fun u => (u, k0))).filter (fun e => !(e.2 == k))
      = l.map (fun u => (u, k0)) := by
  induction l with
  | nil => rfl
  | cons a t ih => simp [List.filter_cons, h, ih]

theorem parentIndexOf_filter (L : List Msg) (k : MsgKey) :
    parentIndexOf (L.filter (fun m => !(keyOf m == k)))
      = (parentIndexOf L).filter (fun e => !(e.2 == k)) := by
  induction L with
  | nil => rfl
  | cons m t ih =>
    cases hk : (keyOf m == k) with
    | true =>
      have hk' : keyOf m = k := by simpa using hk
      rw [List.filter_cons, if_neg (by simp [hk])]
      rw [ih]
      show _ = (parentEntries m ++ parentIndexOf t).filter _
      rw [List.filter_append]
      cases hp : m.parent with
      | none => simp [parentEntries, hp]
      | some p => simp [parentEntries, hp, List.filter_cons, hk']
    | false =>
      rw [List.filter_cons, if_pos (by simp [hk])]
      show parentEntries m ++ parentIndexOf (t.filter _)
        = (parentEntries m ++ parentIndexOf t).filter _
      rw [List.filter_append, ih]
      cases hp : m.parent with
      | none => simp [parentEntries, hp]
      | some p => simp [parentEntries, hp, List.filter_cons, hk]

theorem mentionIndexOf_filter (L : List Msg) (k : MsgKey) :
    mentionIndexOf (L.filter (fun m => !(keyOf m == k)))
      = (mentionIndexOf L).filter (fun e => !(e.2 == k)) := by
  induction L with
  | nil => rfl
  | cons m t ih =>
    cases hk : (keyOf m == k) with
    | true =>
      have hk' : keyOf m = k := by simpa using hk
      rw [List.filter_cons, if_neg (by simp [hk])]
      rw [ih]
      show _ = (mentionEntries m ++ mentionIndexOf t).filter _
      rw [List.filter_append, mentionEntries, hk', filter_pair_self,
        List.nil_append]
    | false =>
      rw [List.filter_cons, if_pos (by simp [hk])]
      show mentionEntries m ++ mentionIndexOf (t.filter _)
        = (mentionEntries m ++ mentionIndexOf t).filter _
      rw [List.filter_append, ih, mentionEntries, filter_pair_ne _ _ _ hk]

theorem byFid_filter_mirror (L : List Msg) (k : MsgKey) :
    (L.map keyOf).filter (fun x => !(x == k))
      = (L.filter (fun m => !(keyOf m == k))).map keyOf := by
  rw [List.filter_map]
  rfl

theorem indexMirror_insertWinner (s : HubState) (m : Msg)
    (h : IndexMirror s) : IndexMirror (insertWinner s m) := by
  obtain ⟨h1, h2, h3⟩ := h
  refine ⟨?_, ?_, ?_⟩
  · show keyOf m :: s.byFid = (m :: s.store).map keyOf
    rw [h1]
    rfl
  · show parentEntries m ++ s.byParent = parentIndexOf (m :: s.store)
    rw [h2]
    rfl
  · show mentionEntries m ++ s.byMention = mentionIndexOf (m :: s.store)
    rw [h3]
    rfl

theorem indexMirror_deleteLoser (s : HubState) (w : Msg)
    (h : IndexMirror s) : IndexMirror (deleteLoser s w) := by
  obtain ⟨h1, h2, h3⟩ := h
  refine ⟨?_, ?_, ?_⟩
  · show s.byFid.filter _ = (s.store.filter _).map keyOf
    rw [h1, byFid_filter_mirror]
  · show s.byParent.filter _ = parentIndexOf (s.store.filter _)
    rw [h2, parentIndexOf_filter]
  · show s.byMention.filter _ = mentionIndexOf (s.store.filter _)
    rw [h3, mentionIndexOf_filter]

theorem indexMirror_merge (s : HubState) (m : Msg)
    (h : IndexMirror s) : IndexMirror (mergeMessage s m).1 := by
  cases hwf : m.wellFormed with
  | false => simpa [mergeMessage, hwf] using h
  | true =>
    cases hau : m.authenticated with
    | false => simpa [mergeMessage, hwf, hau] using h
    | true =>
      cases hf : findConflict s.store m with
      | none =>
        simp only [mergeMessage, hwf, hau, hf]
        exact indexMirror_insertWinner s m h
      | some w =>
        by_cases hr : rankLt w m
        · simp only [mergeMessage, hwf, hau, hf, if_pos hr]
          exact indexMirror_insertWinner _ m (indexMirror_deleteLoser s w h)
        · simpa [mergeMessage, hwf, hau, hf, hr] using h

theorem indexMirror_mergeList (ms : List Msg) :
    ∀ s : HubState, IndexMirror s → IndexMirror (mergeList s ms) := by
  induction ms with
  | nil => exact fun s h => h
  | cons m t ih =>
    intro s h
    exact ih (mergeMessage s m).1 (indexMirror_merge s m h)

theorem tsHashOf_eq_of_keyOf_eq {a b : Msg} (h : keyOf a = keyOf b) :
    tsHashOf a = tsHashOf b := by
  unfold keyOf at h
  injection h with h1 h2 h3 h4
  unfold tsHashOf
  rw [h3, h4]

theorem getMessagesByFid_winners (s : HubState)
    (h : s.byFid = s.store.map keyOf) (fid : Nat) :
    ((getMessagesByFid s fid).map tsHashOf).toFinset
      = ((s.store.filter (fun m => m.fid == fid)).map tsHashOf).toFinset := by
  apply Finset.ext
  intro x
  simp only [List.mem_toFinset, List.mem_map, getMessagesByFid,
    List.mem_filterMap, fetch]
  constructor
  · rintro ⟨m', ⟨k, hk, hfetch⟩, hx⟩
    obtain ⟨hkmem, hkfid⟩ := List.mem_filter.mp hk
    have hkey : keyOf m' = k := by simpa using List.find?_some hfetch
    have hmem := List.mem_of_find?_eq_some hfetch
    refine ⟨m', List.mem_filter.mpr ⟨hmem, ?_⟩, hx⟩
    have hfid : m'.fid = k.fid := by rw [← hkey]; rfl
    rw [hfid]
    exact hkfid
  · rintro ⟨m, hm, hx⟩
    obtain ⟨hmem, hfid⟩ := List.mem_filter.mp hm
    have hkmem : keyOf m ∈ s.byFid := by
      rw [h]
      exact List.mem_map_of_mem keyOf hmem
    have hkfil : keyOf m ∈ s.byFid.filter (fun k => k.fid == fid) :=
      List.mem_filter.mpr ⟨hkmem, hfid⟩
    have hsome : (s.store.find? (fun m' => keyOf m' == keyOf m)).isSome := by
      rw [List.find?_isSome]
      exact ⟨m, hmem, by simp⟩
    obtain ⟨m'', hfind⟩ := Option.isSome_iff_exists.mp hsome
    have hkey : keyOf m'' = keyOf m := by simpa using List.find?_some hfind
    refine ⟨m'', ⟨keyOf m, hkfil, hfind⟩, ?_⟩
    rw [tsHashOf_eq_of_keyOf_eq hkey, hx]

/-- C5: after every sequence of merge operations, the by-fid index stays
in lock-step with primary storage (it equals the index derived from the
stored winners, entries added on insert and removed on supersession in
the same transaction), and for every fid the set of tsHash values
returned by getMessagesByFid equals exactly the set of tsHash values of
the currently-winning messages for that fid in primary storage. -/
theorem index_consistency (ms : List Msg) (fid : Nat) :
    (mergeList initState ms).byFid = (mergeList initState ms).store.map keyOf ∧
    ((getMessagesByFid (mergeList initState ms) fid).map tsHashOf).toFinset
      = (((mergeList initState ms).store.filter
          (fun m => m.fid == fid)).map tsHashOf).toFinset := by
  have hm := indexMirror_mergeList ms initState indexMirror_init
  exact ⟨hm.1, getMessagesByFid_winners _ hm.1 fid⟩

theorem mem_store_of_mem_getMessagesByFid {s : HubState} {x : Msg} {fid : Nat}
    (h : x ∈ getMessagesByFid s fid) : x ∈ s.store := by
  obtain ⟨k, hk, hfetch⟩ := List.mem_filterMap.mp h
  exact List.mem_of_find?_eq_some hfetch

/-- C6: a CastAdd merged with applied = true is returned by getMessage on
its (fid, tsHash) key; after a later valid CastRemove targeting it is
merged, that key resolves to NotFound and getMessagesByFid no longer
includes the cast. (The add's tsHash is fresh in the pre-state, per the
spec's tsHash-uniqueness guarantee.) -/
theorem cast_add_then_remove (s s1 s2 : HubState) (a r : Msg)
    (hak : a.kind = MsgKind.castAdd) (hrk : r.kind = MsgKind.castRemove)
    (hslot : slotOf r = slotOf a)
    (hfresh : ∀ m ∈ s.store,
      ¬(m.fid = a.fid ∧ m.kind = MsgKind.castAdd ∧ tsHashOf m = tsHashOf a))
    (ha : mergeMessage s a = (s1, .ok true))
    (hr : mergeMessage s1 r = (s2, .ok true)) :
    getCast s1 a.fid (tsHashOf a) = .ok a ∧
    getCast s2 a.fid (tsHashOf a)
      = .error ⟨"not_found", "NotFound: cast not found"⟩ ∧
    a ∉ getMessagesByFid s2 a.fid := by
  obtain ⟨hwfa, haua⟩ := mergeMessage_valid_shape s a s1 true ha
  obtain ⟨hwfr, haur⟩ := mergeMessage_valid_shape s1 r s2 true hr
  have hs1 : ∃ rest, s1.store = a :: rest ∧ ∀ m ∈ rest, m ∈ s.store := by
    cases hf : findConflict s.store a with
    | none =>
      simp [mergeMessage, hwfa, haua, hf] at ha
      exact ⟨s.store, by rw [← ha]; rfl, fun m hm => hm⟩
    | some w =>
      by_cases hrr : rankLt w a
      · simp [mergeMessage, hwfa, haua, hf, hrr] at ha
        exact ⟨s.store.filter (fun m => !(keyOf m == keyOf w)),
          by rw [← ha]; rfl, fun m hm => (List.mem_filter.mp hm).1⟩
      · simp [mergeMessage, hwfa, haua, hf, hrr] at ha
  obtain ⟨rest, hst, hrest⟩ := hs1
  have hpa : (a.fid == a.fid && a.kind == MsgKind.castAdd
      && tsHashOf a == tsHashOf a) = true := by
    simp [hak]
  have hfind1 : s1.store.find?
      (fun m => m.fid == a.fid && m.kind == MsgKind.castAdd
        && tsHashOf m == tsHashOf a) = some a := by
    rw [hst]
    exact List.find?_cons_of_pos _ hpa
  have hcast1 : getCast s1 a.fid (tsHashOf a) = .ok a := by
    simp [getCast, hfind1]
  have hf2 : findConflict s1.store r = some a := by
    rw [hst]
    have : (slotOf a == slotOf r) = true := by simp [hslot]
    unfold findConflict
    exact List.find?_cons_of_pos _ this
  have hs2 : s2 = insertWinner (deleteLoser s1 a) r := by
    by_cases hra : rankLt a r
    · simp [mergeMessage, hwfr, haur, hf2, hra] at hr
      exact hr.symm
    · simp [mergeMessage, hwfr, haur, hf2, hra] at hr
  have hs2store : s2.store
      = r :: s1.store.filter (fun m => !(keyOf m == keyOf a)) := by
    rw [hs2]
    rfl
  have hnotfound : s2.store.find?
      (fun m => m.fid == a.fid && m.kind == MsgKind.castAdd
        && tsHashOf m == tsHashOf a) = none := by
    rw [List.find?_eq_none]
    intro m hm
    rw [hs2store] at hm
    rcases List.mem_cons.mp hm with hm | hm
    · subst hm
      simp [hrk]
    · obtain ⟨hmem1, hkne⟩ := List.mem_filter.mp hm
      rw [hst] at hmem1
      rcases List.mem_cons.mp hmem1 with hma | hma
      · subst hma
        simp at hkne
      · have := hfresh m (hrest m hma)
        simp only [Bool.and_eq_true, beq_iff_eq]
        intro hc
        exact this ⟨hc.1.1, hc.1.2, hc.2⟩
  have hcast2 : getCast s2 a.fid (tsHashOf a)
      = .error ⟨"not_found", "NotFound: cast not found"⟩ := by
    simp [getCast, hnotfound]
  refine ⟨hcast1, hcast2, ?_⟩
  intro hmem
  have hstore := mem_store_of_mem_getMessagesByFid hmem
  rw [hs2store] at hstore
  rcases List.mem_cons.mp hstore with hx | hx
  · rw [← hx, hak] at hrk
    exact MsgKind.noConfusion hrk
  · obtain ⟨_, hkne⟩ := List.mem_filter.mp hx
    simp at hkne

/-- The state after also merging the concrete CastRemove, which
supersedes the CastAdd on the exact-tie rule. -/
def exStateAddRem : HubState := (mergeMessage exStateAdd exCastRemove).1

theorem cast_add_then_remove_witness :
    getCast exStateAdd exCastAdd.fid (tsHashOf exCastAdd) = .ok exCastAdd ∧
    getCast exStateAddRem exCastAdd.fid (tsHashOf exCastAdd)
      = .error ⟨"not_found", "NotFound: cast not found"⟩ ∧
    exCastAdd ∉ getMessagesByFid exStateAddRem exCastAdd.fid :=
  cast_add_then_remove initState exStateAdd exStateAddRem exCastAdd exCastRemove
    rfl rfl rfl (by simp [initState]) rfl rfl

/-- C7: a getCast call with an empty fid fails with a validation error
naming fid, regardless of the tsHash argument (fid is reported first);
a call with a non-empty fid and an empty tsHash fails naming tsHash. -/
theorem getCast_missing_field (s : HubState) (fidBytes tsHashBytes : List Nat)
    (hf : fidBytes ≠ []) :
    getCastRpc s [] tsHashBytes
      = .error ⟨"bad_request.validation_failure", "fid is missing"⟩ ∧
    getCastRpc s fidBytes []
      = .error ⟨"bad_request.validation_failure", "tsHash is missing"⟩ := by
  constructor
  · simp [getCastRpc]
  · simp [getCastRpc, hf]

theorem getCast_missing_field_witness :
    getCastRpc initState [] []
      = .error ⟨"bad_request.validation_failure", "fid is missing"⟩ ∧
    getCastRpc initState [1] []
      = .error ⟨"bad_request.validation_failure", "tsHash is missing"⟩ :=
  getCast_missing_field initState [1] [] (by decide)

theorem mem_parentIndexOf {e : Nat × MsgKey} {L : List Msg}
    (h : e ∈ parentIndexOf L) :
    ∃ m ∈ L, m.parent = some e.1 ∧ e.2 = keyOf m := by
  induction L with
  | nil => exact absurd h (List.not_mem_nil e)
  | cons m t ih =>
    have h' : e ∈ parentEntries m ++ parentIndexOf t := h
    rcases List.mem_append.mp h' with h1 | h1
    · cases hp : m.parent with
      | none =>
        rw [parentEntries, hp] at h1
        exact absurd h1 (List.not_mem_nil e)
      | some q =>
        rw [parentEntries, hp] at h1
        have he : e = (q, keyOf m) := List.mem_singleton.mp h1
        refine ⟨m, List.mem_cons_self _ _, ?_, ?_⟩
        · rw [he, hp]
        · rw [he]
    · obtain ⟨m', hm', h2, h3⟩ := ih h1
      exact ⟨m', List.mem_cons_of_mem _ hm', h2, h3⟩

theorem mem_mentionIndexOf {e : Nat × MsgKey} {L : List Msg}
    (h : e ∈ mentionIndexOf L) :
    ∃ m ∈ L, e.1 ∈ m.mentions ∧ e.2 = keyOf m := by
  induction L with
  | nil => exact absurd h (List.not_mem_nil e)
  | cons m t ih =>
    have h' : e ∈ mentionEntries m ++ mentionIndexOf t := h
    rcases List.mem_append.mp h' with h1 | h1
    · rw [mentionEntries] at h1
      obtain ⟨u, hu, he⟩ := List.mem_map.mp h1
      refine ⟨m, List.mem_cons_self _ _, ?_, ?_⟩
      · rw [← he]
        exact hu
      · rw [← he]
    · obtain ⟨m', hm', h2, h3⟩ := ih h1
      exact ⟨m', List.mem_cons_of_mem _ hm', h2, h3⟩

/-- C8: on a key with no matching merged messages, each collection query
(getCastsByFid, getCastsByParent, getCastsByMention) succeeds with the
empty sequence, and on every input each of them returns a successful
sequence, never an error. -/
theorem collection_queries_no_results (s : HubState) (fid p u : Nat)
    (hmir : IndexMirror s)
    (hf : ∀ m ∈ s.store, ¬(m.fid = fid ∧ m.kind = MsgKind.castAdd))
    (hp : ∀ m ∈ s.store, m.parent ≠ some p)
    (hu : ∀ m ∈ s.store, u ∉ m.mentions) :
    getCastsByFid s fid = .ok [] ∧
    getCastsByParent s p = .ok [] ∧
    getCastsByMention s u = .ok [] ∧
    (∀ (s' : HubState) (x : Nat), ∃ l, getCastsByFid s' x = .ok l) ∧
    (∀ (s' : HubState) (x : Nat), ∃ l, getCastsByParent s' x = .ok l) ∧
    (∀ (s' : HubState) (x : Nat), ∃ l, getCastsByMention s' x = .ok l) := by
  refine ⟨?_, ?_, ?_, fun s' x => ⟨_, rfl⟩, fun s' x => ⟨_, rfl⟩,
    fun s' x => ⟨_, rfl⟩⟩
  · have hnil : s.byFid.filter
        (fun k => k.fid == fid && k.kind == MsgKind.castAdd) = [] := by
      rw [hmir.1, List.filter_eq_nil_iff]
      intro k hk
      obtain ⟨m, hm, hkm⟩ := List.mem_map.mp hk
      subst hkm
      simp only [Bool.and_eq_true, beq_iff_eq, keyOf]
      intro hc
      exact hf m hm ⟨hc.1, hc.2⟩
    rw [getCastsByFid, hnil]
    rfl
  · have hnil : s.byParent.filter (fun e => e.1 == p) = [] := by
      rw [hmir.2.1, List.filter_eq_nil_iff]
      intro e he
      obtain ⟨m, hm, hpar, _⟩ := mem_parentIndexOf he
      simp only [beq_iff_eq]
      intro hc
      rw [hc] at hpar
      exact hp m hm hpar
    rw [getCastsByParent, hnil]
    rfl
  · have hnil : s.byMention.filter (fun e => e.1 == u) = [] := by
      rw [hmir.2.2, List.filter_eq_nil_iff]
      intro e he
      obtain ⟨m, hm, hmen, _⟩ := mem_mentionIndexOf he
      simp only [beq_iff_eq]
      intro hc
      rw [hc] at hmen
      exact hu m hm hmen
    rw [getCastsByMention, hnil]
    rfl

theorem collection_queries_no_results_witness :
    getCastsByFid initState 1 = .ok [] ∧
    getCastsByParent initState 2 = .ok [] ∧
    getCastsByMention initState 3 = .ok [] ∧
    (∀ (s' : HubState) (x : Nat), ∃ l, getCastsByFid s' x = .ok l) ∧
    (∀ (s' : HubState) (x : Nat), ∃ l, getCastsByParent s' x = .ok l) ∧
    (∀ (s' : HubState) (x : Nat), ∃ l, getCastsByMention s' x = .ok l) :=
  collection_queries_no_results initState 1 2 3 indexMirror_init
    (by simp [initState]) (by simp [initState]) (by simp [initState])

/-- C9: decoding a Message, an IdentityEvent or a NameEvent from any byte
buffer either succeeds or returns a typed DecodeError; the decoders are
total functions, so a truncated or malformed buffer yields a typed
failure and never an unrecoverable fault. -/
theorem decode_never_faults (b : List Nat) :
    ((∃ m, decodeMessage b = .ok m) ∨ (∃ e, decodeMessage b = .error e)) ∧
    ((∃ v, decodeIdEvent b = .ok v) ∨ (∃ e, decodeIdEvent b = .error e)) ∧
    ((∃ v, decodeNameEvent b = .ok v) ∨ (∃ e, decodeNameEvent b = .error e)) ∧
    (b.length < 7 → decodeMessage b = .error .truncated) ∧
    (b.length < 5 →
      decodeIdEvent b = .error .truncated ∧
      decodeNameEvent b = .error .truncated) := by
  refine ⟨?_, ?_, ?_, ?_, ?_⟩
  · cases hd : decodeMessage b with
    | ok m => exact Or.inl ⟨m, rfl⟩
    | error e => exact Or.inr ⟨e, rfl⟩
  · cases hd : decodeIdEvent b with
    | ok v => exact Or.inl ⟨v, rfl⟩
    | error e => exact Or.inr ⟨e, rfl⟩
  · cases hd : decodeNameEvent b with
    | ok v => exact Or.inl ⟨v, rfl⟩
    | error e => exact Or.inr ⟨e, rfl⟩
  · intro hlen
    match b with
    | [] => rfl
    | [x1] => rfl
    | [x1, x2] => rfl
    | [x1, x2, x3] => rfl
    | [x1, x2, x3, x4] => rfl
    | [x1, x2, x3, x4, x5] => rfl
    | [x1, x2, x3, x4, x5, x6] => rfl
    | x1 :: x2 :: x3 :: x4 :: x5 :: x6 :: x7 :: rest =>
      simp at hlen
      omega
  · intro hlen
    match b with
    | [] => exact ⟨rfl, rfl⟩
    | [x1] => exact ⟨rfl, rfl⟩
    | [x1, x2] => exact ⟨rfl, rfl⟩
    | [x1, x2, x3] => exact ⟨rfl, rfl⟩
    | [x1, x2, x3, x4] => exact ⟨rfl, rfl⟩
    | x1 :: x2 :: x3 :: x4 :: x5 :: rest =>
      simp at hlen
      omega

theorem decode_never_faults_witness :
    decodeMessage [1, 2] = .error .truncated ∧
    decodeIdEvent [1, 2] = .error .truncated ∧
    decodeNameEvent [1, 2] = .error .truncated :=
  ⟨(decode_never_faults [1, 2]).2.2.2.1 (by decide),
   ((decode_never_faults [1, 2]).2.2.2.2 (by decide)).1,
   ((decode_never_faults [1, 2]).2.2.2.2 (by decide)).2⟩

/-- C10: each submit handler responds, on any successful merge result
(the redundant applied = false case included), with the exact entity
model constructed from the request, never a value re-read from storage;
on a merge error it responds with that error translated through
toServiceError and no entity. -/
theorem submit_responds_with_request (s : HubState) (m : Msg) (ie : IdEvent)
    (nev : NameEvent) :
    (∀ s' b, mergeMessage s m = (s', .ok b) →
      submitMessage s m = (s', .ok m)) ∧
    (∀ s' e, mergeMessage s m = (s', .error e) →
      submitMessage s m = (s', .error (toServiceError e))) ∧
    (∀ s' b, mergeIdRegistryEvent s ie = (s', .ok b) →
      submitContractEvent s ie = (s', .ok ie)) ∧
    (∀ s' e, mergeIdRegistryEvent s ie = (s', .error e) →
      submitContractEvent s ie = (s', .error (toServiceError e))) ∧
    (∀ s' b, mergeNameRegistryEvent s nev = (s', .ok b) →
      submitNameRegistryEvent s nev = (s', .ok nev)) ∧
    (∀ s' e, mergeNameRegistryEvent s nev = (s', .error e) →
      submitNameRegistryEvent s nev = (s', .error (toServiceError e))) := by
  refine ⟨?_, ?_, ?_, ?_, ?_, ?_⟩
  · intro s' b h
    simp [submitMessage, h]
  · intro s' e h
    simp [submitMessage, h]
  · intro s' b h
    simp [submitContractEvent, h]
  · intro s' e h
    simp [submitContractEvent, h]
  · intro s' b h
    simp [submitNameRegistryEvent, h]
  · intro s' e h
    simp [submitNameRegistryEvent, h]

/-- A concrete identity-registry event. -/
def exIdEvent : IdEvent := ⟨1, 2, 3, 0, true⟩

/-- A concrete name-registry event. -/
def exNameEvent : NameEvent := ⟨7, 2, 3, 0, true⟩

/-- The state after merging the concrete identity-registry event. -/
def exStateId : HubState := (mergeIdRegistryEvent initState exIdEvent).1

theorem submit_responds_with_request_witness :
    submitMessage initState exCastAdd = (exStateAdd, .ok exCastAdd) ∧
    submitMessage initState exBadMsg = (initState,
      .error (toServiceError
        ⟨"bad_request.validation_failure", "malformed message"⟩)) ∧
    submitContractEvent initState exIdEvent = (exStateId, .ok exIdEvent) :=
  ⟨(submit_responds_with_request initState exCastAdd exIdEvent exNameEvent).1
      exStateAdd true rfl,
   (submit_responds_with_request initState exBadMsg exIdEvent exNameEvent).2.1
      initState ⟨"bad_request.validation_failure", "malformed message"⟩ rfl,
   (submit_responds_with_request initState exCastAdd exIdEvent exNameEvent).2.2.1
      exStateId true rfl⟩
